import Mathlib

/-!
Shallow embedding of `orca_core/core.py` (class `OrcaHand`): the
joint/motor coordinate transforms, the calibration helpers and the
construction-time sanity checks.

Modelling conventions:
* Python floats are modelled as rationals (`ℚ`).
* Python dicts are association lists with Python-dict assignment
  semantics (`dictSet`: update the existing key in place, else append)
  and Python-dict lookup (`dictGet`).
* numpy 1-D indexing, including the negative-index wrap, is `npGet` /
  `npSet`; an out-of-range index is `Err.indexError`.
* Fallible Python code (KeyError / IndexError / ValueError) returns
  `Except Err`.  The `ValueError("Motor ... is not calibrated.")`
  raised by `_joint_to_motor_pos` is the constructor
  `Err.notCalibrated` carrying the motor id and joint name.
-/

abbrev JointId := String


inductive Err where
  | keyError : Err
  | indexError : Err
  | notCalibrated : Nat → JointId → Err
  | valueError : String → Err
  deriving Repr, DecidableEq

deriving instance DecidableEq for Except

section Dict

variable {α β : Type} [DecidableEq α]

/-- Python dict lookup `d.get(k)` on an association list. -/
def dictGet : List (α × β) → α → Option β
  | [], _ => none
  | q :: tl, k => if q.1 = k then some q.2 else dictGet tl k

/-- Python dict assignment `d[k] = v`: overwrite the existing entry in
place, otherwise append a new entry at the end. -/
def dictSet : List (α × β) → α → β → List (α × β)
  | [], k, v => [(k, v)]
  | q :: tl, k, v => if q.1 = k then (k, v) :: tl else q :: dictSet tl k v

theorem dictGet_mem {d : List (α × β)} {k : α} {v : β}
    (h : dictGet d k = some v) : (k, v) ∈ d := by
  induction d with
  | nil => simp [dictGet] at h
  | cons q tl ih =>
    by_cases hk : q.1 = k
    · rw [dictGet, if_pos hk] at h
      have hv : q.2 = v := by exact Option.some.inj h
      have : q = (k, v) := by
        cases q; simp_all
      rw [← this]; exact List.mem_cons_self _ _
    · rw [dictGet, if_neg hk] at h
      exact List.mem_cons_of_mem _ (ih h)

theorem dictGet_dictSet_self (d : List (α × β)) (k : α) (v : β) :
    dictGet (dictSet d k v) k = some v := by
  induction d with
  | nil => simp [dictGet, dictSet]
  | cons q tl ih =>
    by_cases hk : q.1 = k
    · rw [dictSet, if_pos hk, dictGet, if_pos rfl]
    · rw [dictSet, if_neg hk, dictGet, if_neg hk]
      exact ih

theorem dictGet_dictSet_ne (d : List (α × β)) (k k' : α) (v : β)
    (hne : k' ≠ k) : dictGet (dictSet d k v) k' = dictGet d k' := by
  induction d with
  | nil =>
    have : ¬ (k = k') := fun h => hne h.symm
    simp [dictGet, dictSet, this]
  | cons q tl ih =>
    by_cases hk : q.1 = k
    · have hq : ¬ (q.1 = k') := fun h => hne (h ▸ hk.symm ▸ rfl)
      have hkk : ¬ (k = k') := fun h => hne h.symm
      rw [dictSet, if_pos hk, dictGet, if_neg hkk, dictGet, if_neg hq]
    · rw [dictSet, if_neg hk]
      by_cases hq : q.1 = k'
      · rw [dictGet, if_pos hq, dictGet, if_pos hq]
      · rw [dictGet, if_neg hq, dictGet, if_neg hq]
        exact ih

end Dict

/-- List update lemma: reading back the slot just written. -/
theorem get?_set_self {γ : Type} (l : List γ) (i : Nat) (x : γ)
    (h : i < l.length) : (l.set i x).get? i = some x := by
  induction l generalizing i with
  | nil => simp at h
  | cons a tl ih =>
    cases i with
    | zero => rfl
    | succ j =>
      simp only [List.set, List.get?]
      exact ih j (by simpa using h)

/-- List update lemma: other slots are untouched. -/
theorem get?_set_ne {γ : Type} (l : List γ) (i j : Nat) (x : γ)
    (h : i ≠ j) : (l.set i x).get? j = l.get? j := by
  induction l generalizing i j with
  | nil => simp
  | cons a tl ih =>
    cases i with
    | zero =>
      cases j with
      | zero => exact absurd rfl h
      | succ j' => rfl
    | succ i' =>
      cases j with
      | zero => rfl
      | succ j' =>
        simp only [List.set, List.get?]
        exact ih i' j' (fun hc => h (by rw [hc]))

/-- numpy 1-D element assignment `v[i] = x` with negative-index wrap;
out of range raises IndexError. -/
def npSet (v : List ℚ) (i : Int) (x : ℚ) : Except Err (List ℚ) :=
  let n : Int := v.length
  let j : Int := if i < 0 then i + n else i
  if 0 ≤ j ∧ j < n then .ok (v.set j.toNat x) else .error .indexError

/-- numpy 1-D element read `v[i]` with negative-index wrap. -/
def npGet (v : List ℚ) (i : Int) : Except Err ℚ :=
  let n : Int := v.length
  let j : Int := if i < 0 then i + n else i
  if 0 ≤ j ∧ j < n then
    match v.get? j.toNat with
    | some x => .ok x
    | none => .error .indexError
  else .error .indexError

/-- The state of an `OrcaHand` object relevant to the transforms and
checks: configuration (ids, maps, ROMs, mode, currents, sequence) and
calibration data (limits, ratios, flag). -/
structure Hand where
  motor_ids : List Nat
  joint_ids : List JointId
  joint_to_motor_map : List (JointId × Nat)
  joint_roms : List (JointId × (ℚ × ℚ))
  motor_limits : List (Nat × (Option ℚ × Option ℚ))
  joint_to_motor_ratios : List (Nat × ℚ)
  calibrated : Bool
  control_mode : String
  max_current : ℚ
  calib_current : ℚ
  calib_sequence : List (List (JointId × String))
  calib_threshold : ℚ
  calib_num_stable : Nat
  deriving Repr, DecidableEq

/-- `self.motor_to_joint_map = {v: k for k, v in self.joint_to_motor_map.items()}`:
dict inversion, later entries overwriting earlier ones. -/
def motorToJointMap (h : Hand) : List (Nat × JointId) :=
  h.joint_to_motor_map.foldl (fun acc q => dictSet acc q.2 q.1) []

/-- `is_calibrated`: every motor's limit pair has both bounds defined;
reads only the limit table, never the cached flag. -/
def isCalibrated (h : Hand) : Bool :=
  h.motor_limits.all (fun q => q.2.1.isSome && q.2.2.isSome)

/-- One iteration of the loop in `_motor_to_joint_pos` for
`motor_id, pos` from `enumerate(motor_pos, start=1)`.  The Python test
`any(limit is None for limit in self.motor_limits[motor_id])` is the
catch-all branch of the match on the limit pair. -/
def m2jStep (h : Hand) (acc : List (Option JointId × Option ℚ))
    (motor_id : Nat) (pos : ℚ) :
    Except Err (List (Option JointId × Option ℚ)) :=
  let joint_name := dictGet (motorToJointMap h) motor_id
  match dictGet h.motor_limits motor_id with
  | none => .error .keyError
  | some lims =>
    match lims.1, lims.2 with
    | some lmin, some _ =>
      match joint_name with
      | none => .error .keyError
      | some jn =>
        match dictGet h.joint_roms jn with
        | none => .error .keyError
        | some rom =>
          match dictGet h.joint_to_motor_ratios motor_id with
          | some r =>
            .ok (dictSet acc (some jn) (some (rom.1 + (pos - lmin) / r)))
          | none => .error .keyError
    | _, _ => .ok (dictSet acc joint_name none)

/-- The loop of `_motor_to_joint_pos`, processing motor ids
`i, i+1, ...` against the remaining positions. -/
def m2jGo (h : Hand) :
    List (Option JointId × Option ℚ) → Nat → List ℚ →
    Except Err (List (Option JointId × Option ℚ))
  | acc, _, [] => .ok acc
  | acc, i, pos :: rest =>
    match m2jStep h acc i pos with
    | .ok acc1 => m2jGo h acc1 (i + 1) rest
    | .error e => .error e

/-- `_motor_to_joint_pos(motor_pos)`. -/
def motorToJointPos (h : Hand) (motor_pos : List ℚ) :
    Except Err (List (Option JointId × Option ℚ)) :=
  m2jGo h [] 1 motor_pos

/-- One iteration of the loop in `_joint_to_motor_pos` for a mentioned
`(joint_name, pos)`: unknown joints are skipped (`continue`); a motor
with an undefined limit bound raises the not-calibrated ValueError;
otherwise slot `motor_id - 1` receives
`limits[0] + (pos - rom[0]) * ratio`. -/
def j2mStep (h : Hand) (mp : List ℚ) (jn : JointId) (pos : ℚ) :
    Except Err (List ℚ) :=
  match dictGet h.joint_to_motor_map jn with
  | none => .ok mp
  | some motor_id =>
    match dictGet h.motor_limits motor_id with
    | none => .error .keyError
    | some lims =>
      match lims.1, lims.2 with
      | some lmin, some _ =>
        match dictGet h.joint_roms jn, dictGet h.joint_to_motor_ratios motor_id with
        | some rom, some r =>
          npSet mp ((motor_id : Int) - 1) (lmin + (pos - rom.1) * r)
        | _, _ => .error .keyError
      | _, _ => .error (.notCalibrated motor_id jn)

/-- The loop of `_joint_to_motor_pos` over the partial mapping. -/
def j2mGo (h : Hand) : List ℚ → List (JointId × ℚ) → Except Err (List ℚ)
  | mp, [] => .ok mp
  | mp, q :: rest =>
    match j2mStep h mp q.1 q.2 with
    | .ok mp1 => j2mGo h mp1 rest
    | .error e => .error e

/-- `_joint_to_motor_pos(joint_pos)`: starts from the current live
motor-position vector and folds the partial mapping over it. -/
def jointToMotorPos (h : Hand) (current : List ℚ)
    (joint_pos : List (JointId × ℚ)) : Except Err (List ℚ) :=
  j2mGo h current joint_pos

/-- `_set_motor_pos` with an ndarray argument (the path taken by
`set_joint_pos`): length assertion, then one combined write; the
returned vector is what is written to the hardware. -/
def setMotorPosVec (h : Hand) (desired : List ℚ) : Except Err (List ℚ) :=
  if desired.length = h.motor_ids.length then .ok desired
  else .error (.valueError "Number of motor positions do not match the number of motors.")

/-- The list comprehension in the dict branch of `_set_motor_pos`:
`[desired_pos.get(motor_id, 0 if rel_to_current else current_pos[motor_id - 1]) for motor_id in ...]`. -/
def buildDesired (current : List ℚ) (desired : List (Nat × ℚ))
    (rel : Bool) : List Nat → Except Err (List ℚ)
  | [] => .ok []
  | m :: ms =>
    let v0 : Except Err ℚ :=
      match dictGet desired m with
      | some v => .ok v
      | none => if rel then .ok 0 else npGet current ((m : Int) - 1)
    match v0 with
    | .error e => .error e
    | .ok v =>
      match buildDesired current desired rel ms with
      | .error e => .error e
      | .ok vs => .ok (v :: vs)

/-- `_set_motor_pos` with a dict argument: build the full vector in
`motor_ids` order, add the current vector when `rel_to_current`, then
issue the single combined write (the returned vector). -/
def setMotorPosDict (h : Hand) (current : List ℚ)
    (desired : List (Nat × ℚ)) (rel : Bool) : Except Err (List ℚ) :=
  match buildDesired current desired rel h.motor_ids with
  | .error e => .error e
  | .ok arr =>
    if rel then
      if arr.length = current.length then
        .ok (List.zipWith (· + ·) arr current)
      else .error (.valueError "operands could not be broadcast together")
    else .ok arr

/-- `set_joint_pos(joint_pos)`: convert (which may raise), then write
the full motor vector; `.ok v` means exactly the vector `v` was
written, `.error` means no hardware position write happened. -/
def setJointPos (h : Hand) (current : List ℚ)
    (joint_pos : List (JointId × ℚ)) : Except Err (List ℚ) :=
  match jointToMotorPos h current joint_pos with
  | .ok mp => setMotorPosVec h mp
  | .error e => .error e

/-- The hardware position writes issued by a call whose result is `r`. -/
def writesOf (r : Except Err (List ℚ)) : List (List ℚ) :=
  match r with
  | .ok v => [v]
  | .error _ => []

/-- The ratio formula of `calibrate` (and `calibrate_manual`):
`(limits[1] - limits[0]) / (rom[1] - rom[0])`. -/
def computeRatio (lmin lmax rom_min rom_max : ℚ) : ℚ :=
  (lmax - lmin) / (rom_max - rom_min)

/-- numpy's default relative tolerance in `np.allclose`. -/
def npRtol : ℚ := 1 / 100000

/-- `np.allclose(a, b, atol)` against a scalar `b`:
`|x - b| <= atol + rtol * |b|` for every element. -/
def npAllclose (a : List ℚ) (b : ℚ) (atol : ℚ) : Bool :=
  a.all (fun x => decide (|x - b| ≤ atol + npRtol * |b|))

/-- The stability judgment of `calibrate` (line 281):
`len(buffer) == calib_num_stable and np.allclose(buffer, buffer[0], atol=calib_threshold)`. -/
def stableAtLimit (numStable : Nat) (threshold : ℚ) (buf : List ℚ) :
    Except Err Bool :=
  if buf.length = numStable then
    match buf with
    | [] => .error .indexError
    | x0 :: _ => .ok (npAllclose buf x0 threshold)
  else .ok false

/-- `float(np.mean(buffer))`. -/
def meanList (buf : List ℚ) : ℚ := buf.sum / (buf.length : ℚ)

/-- `directions[motor_id] = 1 if direction == 'flex' else -1`. -/
def dirSign (d : String) : Int := if d = "flex" then 1 else -1

/-- The limit-recording step of `calibrate` (lines 285-288): the mean
goes to the upper bound when the direction was flex (+1) and to the
lower bound when extend (-1). -/
def recordLimit (lims : Option ℚ × Option ℚ) (dir : Int) (avg : ℚ) :
    Option ℚ × Option ℚ :=
  let l1 := if dir = 1 then (lims.1, some avg) else lims
  if dir = -1 then (some avg, l1.2) else l1

/-- The control modes accepted by `_sanity_check`. -/
def validModes : List String :=
  ["current_position", "current_velocity", "position",
   "multi_turn_position", "current_based_position"]

/-- `_sanity_check`: the construction-time validation.  On success it
returns the (possibly corrected) hand state together with the list of
persisted `update_yaml` key/value writes. -/
def sanityCheck (h : Hand) : Except Err (Hand × List (String × Bool)) :=
  if h.motor_ids.length ≠ h.joint_ids.length then
    .error (.valueError "Number of motor IDs and joints do not match.")
  else if h.motor_ids.length ≠ h.joint_to_motor_map.length then
    .error (.valueError "Number of motor IDs and joints do not match.")
  else if ¬ (validModes.contains h.control_mode) then
    .error (.valueError "Invalid control mode.")
  else if h.max_current < h.calib_current then
    .error (.valueError "Max current should be greater than the calibration current.")
  else if ¬ (h.joint_to_motor_map.all (fun q =>
      h.joint_ids.contains q.1 && (dictGet h.joint_roms q.1).isSome &&
      h.motor_ids.contains q.2)) then
    .error (.valueError "joint map entry check failed")
  else if ¬ (h.joint_roms.all (fun q =>
      decide (0 < q.2.2 - q.2.1) && h.joint_ids.contains q.1)) then
    .error (.valueError "ROM check failed")
  else if ¬ (h.calib_sequence.all (fun st => st.all (fun q =>
      h.joint_ids.contains q.1 && (q.2 == "flex" || q.2 == "extend")))) then
    .error (.valueError "calibration sequence check failed")
  else
    if (h.motor_limits.filter (fun q => q.2.1.isNone || q.2.2.isNone)).isEmpty then
      .ok (h, [])
    else
      .ok ({h with calibrated := false},
        (h.motor_limits.filter (fun q => q.2.1.isNone || q.2.2.isNone)).map
          (fun _ => ("calibrated", false)))

/-- Injectivity of the derived motor-to-joint map: no two entries share
a joint name. -/
def MtjInj (h : Hand) : Prop :=
  ∀ q ∈ motorToJointMap h, ∀ q' ∈ motorToJointMap h, q.2 = q'.2 → q.1 = q'.1

instance (h : Hand) : Decidable (MtjInj h) := by
  unfold MtjInj; infer_instance

/-- Success test for `Except`. -/
def isOkE {γ : Type} (r : Except Err γ) : Bool :=
  match r with
  | .ok _ => true
  | .error _ => false

theorem npSet_pos_ok (v : List ℚ) (i : Int) (x : ℚ)
    (h0 : 0 ≤ i) (h1 : i < (v.length : Int)) :
    npSet v i x = .ok (v.set i.toNat x) := by
  have hni : ¬ i < 0 := by omega
  simp [npSet, hni, h0, h1]

theorem npSet_ok_elim {v w : List ℚ} {i : Int} {x : ℚ}
    (h0 : 0 ≤ i) (hok : npSet v i x = .ok w) :
    i < (v.length : Int) ∧ w = v.set i.toNat x := by
  by_cases h1 : i < (v.length : Int)
  · rw [npSet_pos_ok v i x h0 h1] at hok
    exact ⟨h1, (Except.ok.inj hok).symm⟩
  · exfalso
    have hni : ¬ i < 0 := by omega
    have : npSet v i x = .error .indexError := by
      simp [npSet, hni, h1]
    rw [this] at hok
    exact Except.noConfusion hok

theorem npSet_ok_length {v w : List ℚ} {i : Int} {x : ℚ}
    (hok : npSet v i x = .ok w) : w.length = v.length := by
  simp only [npSet] at hok
  split at hok <;> split at hok <;>
    first
      | (rw [← Except.ok.inj hok, List.length_set])
      | exact Except.noConfusion hok

theorem mtjInj_lookup {h : Hand} (hInj : MtjInj h) {m1 m2 : Nat}
    {j : JointId}
    (h1 : dictGet (motorToJointMap h) m1 = some j)
    (h2 : dictGet (motorToJointMap h) m2 = some j) : m1 = m2 :=
  hInj (m1, j) (dictGet_mem h1) (m2, j) (dictGet_mem h2) rfl

theorem j2mStep_skip {h : Hand} {mp : List ℚ} {jn : JointId} {pos : ℚ}
    (hj : dictGet h.joint_to_motor_map jn = none) :
    j2mStep h mp jn pos = .ok mp := by
  unfold j2mStep
  rw [hj]

theorem j2mStep_notcal {h : Hand} {mp : List ℚ} {jn : JointId} {pos : ℚ}
    {m : Nat} {l1 l2 : Option ℚ}
    (hj : dictGet h.joint_to_motor_map jn = some m)
    (hl : dictGet h.motor_limits m = some (l1, l2))
    (hn : l1 = none ∨ l2 = none) :
    j2mStep h mp jn pos = .error (.notCalibrated m jn) := by
  unfold j2mStep
  simp only [hj, hl]
  rcases hn with hn | hn
  · subst hn; cases l2 <;> rfl
  · subst hn; cases l1 <;> rfl

theorem j2mStep_write {h : Hand} {mp : List ℚ} {jn : JointId} {pos : ℚ}
    {m : Nat} {lmin lmax : ℚ} {rom : ℚ × ℚ} {r : ℚ}
    (hj : dictGet h.joint_to_motor_map jn = some m)
    (hl : dictGet h.motor_limits m = some (some lmin, some lmax))
    (hrom : dictGet h.joint_roms jn = some rom)
    (hr : dictGet h.joint_to_motor_ratios m = some r) :
    j2mStep h mp jn pos = npSet mp ((m : Int) - 1) (lmin + (pos - rom.1) * r) := by
  unfold j2mStep
  simp only [hj, hl, hrom, hr]

theorem j2mStep_ok_cases {h : Hand} {mp mp1 : List ℚ} {jn : JointId} {pos : ℚ}
    (hok : j2mStep h mp jn pos = .ok mp1) :
    (dictGet h.joint_to_motor_map jn = none ∧ mp1 = mp) ∨
    (∃ m lmin lmax rom r,
      dictGet h.joint_to_motor_map jn = some m ∧
      dictGet h.motor_limits m = some (some lmin, some lmax) ∧
      dictGet h.joint_roms jn = some rom ∧
      dictGet h.joint_to_motor_ratios m = some r ∧
      npSet mp ((m : Int) - 1) (lmin + (pos - rom.1) * r) = .ok mp1) := by
  unfold j2mStep at hok
  cases hj : dictGet h.joint_to_motor_map jn with
  | none =>
    simp only [hj] at hok
    exact Or.inl ⟨rfl, (Except.ok.inj hok).symm⟩
  | some m =>
    simp only [hj] at hok
    cases hl : dictGet h.motor_limits m with
    | none => simp only [hl] at hok; exact Except.noConfusion hok
    | some lims =>
      simp only [hl] at hok
      obtain ⟨l1, l2⟩ := lims
      cases l1 with
      | none => cases l2 <;> exact Except.noConfusion hok
      | some lmin =>
        cases l2 with
        | none => exact Except.noConfusion hok
        | some lmax =>
          cases hrom : dictGet h.joint_roms jn with
          | none =>
            simp only [hrom] at hok
            cases dictGet h.joint_to_motor_ratios m <;> exact Except.noConfusion hok
          | some rom =>
            simp only [hrom] at hok
            cases hr : dictGet h.joint_to_motor_ratios m with
            | none => simp only [hr] at hok; exact Except.noConfusion hok
            | some r =>
              simp only [hr] at hok
              exact Or.inr ⟨m, lmin, lmax, rom, r, rfl, hl, rfl, hr, hok⟩

theorem j2mGo_ok_length {h : Hand} :
    ∀ (jp : List (JointId × ℚ)) (mp mp' : List ℚ),
    j2mGo h mp jp = .ok mp' → mp'.length = mp.length := by
  intro jp
  induction jp with
  | nil =>
    intro mp mp' hok
    simp only [j2mGo] at hok
    rw [← Except.ok.inj hok]
  | cons q rest ih =>
    intro mp mp' hok
    cases hstep : j2mStep h mp q.1 q.2 with
    | error e =>
      simp only [j2mGo, hstep] at hok
      exact Except.noConfusion hok
    | ok mp1 =>
      simp only [j2mGo, hstep] at hok
      have h2 := ih mp1 mp' hok
      rcases j2mStep_ok_cases hstep with ⟨_, hmp⟩ |
        ⟨m, lmin, lmax, rom, r, _, _, _, _, hset⟩
      · rw [h2, hmp]
      · rw [h2, npSet_ok_length hset]

theorem j2mGo_frame {h : Hand} :
    ∀ (jp : List (JointId × ℚ)) (mp mp' : List ℚ) (i : Nat),
    j2mGo h mp jp = .ok mp' →
    (∀ q ∈ jp, ∀ m' : Nat, dictGet h.joint_to_motor_map q.1 = some m' →
      1 ≤ m' ∧ m' ≠ i + 1) →
    mp'.get? i = mp.get? i := by
  intro jp
  induction jp with
  | nil =>
    intro mp mp' i hok _
    simp only [j2mGo] at hok
    rw [← Except.ok.inj hok]
  | cons q rest ih =>
    intro mp mp' i hok hno
    cases hstep : j2mStep h mp q.1 q.2 with
    | error e =>
      simp only [j2mGo, hstep] at hok
      exact Except.noConfusion hok
    | ok mp1 =>
      simp only [j2mGo, hstep] at hok
      have hrest : ∀ q' ∈ rest, ∀ m' : Nat, dictGet h.joint_to_motor_map q'.1 = some m' →
          1 ≤ m' ∧ m' ≠ i + 1 :=
        fun q' hq' => hno q' (List.mem_cons_of_mem _ hq')
      rcases j2mStep_ok_cases hstep with ⟨_, hmp⟩ |
        ⟨m, lmin, lmax, rom, r, hj, _, _, _, hset⟩
      · rw [ih mp1 mp' i hok hrest, hmp]
      · obtain ⟨hm1, hmne⟩ := hno q (List.mem_cons_self _ _) m hj
        have h0 : (0 : Int) ≤ (m : Int) - 1 := by omega
        obtain ⟨hlt, hmp1⟩ := npSet_ok_elim h0 hset
        have htn : ((m : Int) - 1).toNat = m - 1 := by omega
        have hne : m - 1 ≠ i := by omega
        rw [ih mp1 mp' i hok hrest, hmp1, htn, get?_set_ne _ _ _ _ hne]

theorem j2mGo_value {h : Hand} {m : Nat} {jn : JointId} {p : ℚ}
    {lmin lmax : ℚ} {rom : ℚ × ℚ} {r : ℚ}
    (hj : dictGet h.joint_to_motor_map jn = some m)
    (hm1 : 1 ≤ m)
    (hlim : dictGet h.motor_limits m = some (some lmin, some lmax))
    (hrom : dictGet h.joint_roms jn = some rom)
    (hr : dictGet h.joint_to_motor_ratios m = some r) :
    ∀ (jp : List (JointId × ℚ)) (mp mp' : List ℚ),
    j2mGo h mp jp = .ok mp' →
    (∀ q ∈ jp, ∀ m'' : Nat, dictGet h.joint_to_motor_map q.1 = some m'' →
      1 ≤ m'' ∧ (m'' = m → q = (jn, p))) →
    (((jn, p) ∈ jp → mp'.get? (m - 1) = some (lmin + (p - rom.1) * r)) ∧
     (mp.get? (m - 1) = some (lmin + (p - rom.1) * r) →
      mp'.get? (m - 1) = some (lmin + (p - rom.1) * r))) := by
  intro jp
  induction jp with
  | nil =>
    intro mp mp' hok _
    simp only [j2mGo] at hok
    exact ⟨fun hmem => absurd hmem (List.not_mem_nil _),
      fun hv => by rw [← Except.ok.inj hok]; exact hv⟩
  | cons q rest ih =>
    intro mp mp' hok hu
    cases hstep : j2mStep h mp q.1 q.2 with
    | error e =>
      simp only [j2mGo, hstep] at hok
      exact Except.noConfusion hok
    | ok mp1 =>
      simp only [j2mGo, hstep] at hok
      have hurest : ∀ q' ∈ rest, ∀ m'' : Nat, dictGet h.joint_to_motor_map q'.1 = some m'' →
          1 ≤ m'' ∧ (m'' = m → q' = (jn, p)) :=
        fun q' hq' => hu q' (List.mem_cons_of_mem _ hq')
      have ihr := ih mp1 mp' hok hurest
      rcases j2mStep_ok_cases hstep with ⟨hj0, hmp⟩ |
        ⟨m'', lmin'', lmax'', rom'', r'', hj'', hl'', hrom'', hr'', hset⟩
      · constructor
        · intro hmem
          rcases List.mem_cons.mp hmem with hq | hq
          · exfalso
            have hq1 : q.1 = jn := by rw [← hq]
            rw [hq1, hj] at hj0
            exact Option.noConfusion hj0
          · exact ihr.1 hq
        · intro hv
          exact ihr.2 (by rw [hmp]; exact hv)
      · obtain ⟨hm''1, himp⟩ := hu q (List.mem_cons_self _ _) m'' hj''
        have h0 : (0 : Int) ≤ (m'' : Int) - 1 := by omega
        obtain ⟨hlt, hmp1⟩ := npSet_ok_elim h0 hset
        have htn : ((m'' : Int) - 1).toNat = m'' - 1 := by omega
        by_cases hmm : m'' = m
        · subst hmm
          have hq : q = (jn, p) := himp rfl
          have hq1 : q.1 = jn := by rw [hq]
          have hq2 : q.2 = p := by rw [hq]
          rw [hq1] at hrom''
          rw [hl''] at hlim
          rw [hrom''] at hrom
          rw [hr''] at hr
          have hpair := Option.some.inj hlim
          rw [Prod.mk.injEq] at hpair
          have hlmin : lmin'' = lmin := Option.some.inj hpair.1
          have hromq : rom'' = rom := Option.some.inj hrom
          have hrq : r'' = r := Option.some.inj hr
          have hval : mp1.get? (m'' - 1) = some (lmin + (p - rom.1) * r) := by
            rw [hmp1, htn]
            have hlen : m'' - 1 < mp.length := by omega
            rw [get?_set_self _ _ _ hlen, hlmin, hromq, hrq, hq2]
          exact ⟨fun _ => ihr.2 hval, fun _ => ihr.2 hval⟩
        · have hne : m'' - 1 ≠ m - 1 := by omega
          have hpres : mp1.get? (m - 1) = mp.get? (m - 1) := by
            rw [hmp1, htn, get?_set_ne _ _ _ _ hne]
          constructor
          · intro hmem
            rcases List.mem_cons.mp hmem with hq | hq
            · exfalso
              have hq1 : q.1 = jn := by rw [← hq]
              rw [hq1, hj] at hj''
              exact hmm (Option.some.inj hj'').symm
            · exact ihr.1 hq
          · intro hv
            exact ihr.2 (by rw [hpres]; exact hv)

theorem m2jStep_uncal {h : Hand} {acc : List (Option JointId × Option ℚ)}
    {i : Nat} {pos : ℚ} {l1 l2 : Option ℚ}
    (hl : dictGet h.motor_limits i = some (l1, l2))
    (hn : l1 = none ∨ l2 = none) :
    m2jStep h acc i pos = .ok (dictSet acc (dictGet (motorToJointMap h) i) none) := by
  unfold m2jStep
  simp only [hl]
  rcases hn with hn | hn
  · subst hn; cases l2 <;> rfl
  · subst hn; cases l1 <;> rfl

theorem m2jStep_cal {h : Hand} {acc : List (Option JointId × Option ℚ)}
    {i : Nat} {pos : ℚ} {lmin lmax : ℚ} {jn : JointId} {rom : ℚ × ℚ} {r : ℚ}
    (hl : dictGet h.motor_limits i = some (some lmin, some lmax))
    (hjn : dictGet (motorToJointMap h) i = some jn)
    (hrom : dictGet h.joint_roms jn = some rom)
    (hr : dictGet h.joint_to_motor_ratios i = some r) :
    m2jStep h acc i pos = .ok (dictSet acc (some jn) (some (rom.1 + (pos - lmin) / r))) := by
  unfold m2jStep
  simp only [hl, hjn, hrom, hr]

theorem m2jStep_ok_cases {h : Hand} {acc acc1 : List (Option JointId × Option ℚ)}
    {i : Nat} {pos : ℚ}
    (hok : m2jStep h acc i pos = .ok acc1) :
    (acc1 = dictSet acc (dictGet (motorToJointMap h) i) none ∧
      ∃ l1 l2, dictGet h.motor_limits i = some (l1, l2) ∧ (l1 = none ∨ l2 = none)) ∨
    (∃ jn v, dictGet (motorToJointMap h) i = some jn ∧
      acc1 = dictSet acc (some jn) (some v)) := by
  unfold m2jStep at hok
  cases hl : dictGet h.motor_limits i with
  | none => simp only [hl] at hok; exact Except.noConfusion hok
  | some lims =>
    simp only [hl] at hok
    obtain ⟨l1, l2⟩ := lims
    cases l1 with
    | none =>
      cases l2 with
      | none =>
        exact Or.inl ⟨(Except.ok.inj hok).symm, none, none, rfl, Or.inl rfl⟩
      | some b =>
        exact Or.inl ⟨(Except.ok.inj hok).symm, none, some b, rfl, Or.inl rfl⟩
    | some a =>
      cases l2 with
      | none =>
        exact Or.inl ⟨(Except.ok.inj hok).symm, some a, none, rfl, Or.inr rfl⟩
      | some b =>
        cases hjn : dictGet (motorToJointMap h) i with
        | none => simp only [hjn] at hok; exact Except.noConfusion hok
        | some jn =>
          simp only [hjn] at hok
          cases hrom : dictGet h.joint_roms jn with
          | none => simp only [hrom] at hok; exact Except.noConfusion hok
          | some rom =>
            simp only [hrom] at hok
            cases hr : dictGet h.joint_to_motor_ratios i with
            | none => simp only [hr] at hok; exact Except.noConfusion hok
            | some r =>
              simp only [hr] at hok
              exact Or.inr ⟨jn, rom.1 + (pos - a) / r, rfl, (Except.ok.inj hok).symm⟩

theorem m2jGo_none {h : Hand} (hInj : MtjInj h) {m : Nat} {l1 l2 : Option ℚ}
    (hlim : dictGet h.motor_limits m = some (l1, l2))
    (hn : l1 = none ∨ l2 = none) :
    ∀ (rest : List ℚ) (acc : List (Option JointId × Option ℚ)) (i : Nat)
      (d : List (Option JointId × Option ℚ)),
    m2jGo h acc i rest = .ok d →
    ((i ≤ m → m - i < rest.length →
       dictGet d (dictGet (motorToJointMap h) m) = some none) ∧
     (m < i → dictGet acc (dictGet (motorToJointMap h) m) = some none →
       dictGet d (dictGet (motorToJointMap h) m) = some none)) := by
  intro rest
  induction rest with
  | nil =>
    intro acc i d hok
    simp only [m2jGo] at hok
    refine ⟨fun _ hlt => absurd hlt (by simp), fun _ hacc => ?_⟩
    rw [← Except.ok.inj hok]
    exact hacc
  | cons pos rest' ih =>
    intro acc i d hok
    cases hstep : m2jStep h acc i pos with
    | error e =>
      simp only [m2jGo, hstep] at hok
      exact Except.noConfusion hok
    | ok acc1 =>
      simp only [m2jGo, hstep] at hok
      have ihr := ih acc1 (i + 1) d hok
      constructor
      · intro hle hlt
        rcases Nat.eq_or_lt_of_le hle with heq | hlt2
        · subst heq
          have hstep2 := @m2jStep_uncal h acc _ pos _ _ hlim hn
          rw [hstep2] at hstep
          have hacc1 : acc1 = dictSet acc (dictGet (motorToJointMap h) i) none :=
            (Except.ok.inj hstep).symm
          exact ihr.2 (by omega) (by rw [hacc1, dictGet_dictSet_self])
        · exact ihr.1 (by omega) (by simp at hlt; omega)
      · intro him hacc
        refine ihr.2 (by omega) ?_
        rcases m2jStep_ok_cases hstep with ⟨hw, _⟩ | ⟨jn, v, hjni, hw⟩
        · by_cases hk : dictGet (motorToJointMap h) i = dictGet (motorToJointMap h) m
          · rw [hw, hk, dictGet_dictSet_self]
          · rw [hw, dictGet_dictSet_ne _ _ _ _ (fun hc => hk hc.symm)]
            exact hacc
        · have hk : (some jn : Option JointId) ≠ dictGet (motorToJointMap h) m := by
            intro hc
            have := mtjInj_lookup hInj hjni hc.symm
            omega
          rw [hw, dictGet_dictSet_ne _ _ _ _ (fun hc => hk hc.symm)]
          exact hacc

theorem m2jGo_cal {h : Hand} (hInj : MtjInj h) {m : Nat} {jn : JointId}
    {lmin lmax : ℚ} {rom : ℚ × ℚ} {r : ℚ}
    (hmtj : dictGet (motorToJointMap h) m = some jn)
    (hlim : dictGet h.motor_limits m = some (some lmin, some lmax))
    (hrom : dictGet h.joint_roms jn = some rom)
    (hr : dictGet h.joint_to_motor_ratios m = some r) :
    ∀ (rest : List ℚ) (acc : List (Option JointId × Option ℚ)) (i : Nat)
      (d : List (Option JointId × Option ℚ)),
    m2jGo h acc i rest = .ok d →
    ((∀ pos, i ≤ m → rest.get? (m - i) = some pos →
        dictGet d (some jn) = some (some (rom.1 + (pos - lmin) / r))) ∧
     (m < i → dictGet d (some jn) = dictGet acc (some jn))) := by
  intro rest
  induction rest with
  | nil =>
    intro acc i d hok
    simp only [m2jGo] at hok
    refine ⟨fun pos _ hget => absurd hget (by simp [List.get?]), fun _ => ?_⟩
    rw [← Except.ok.inj hok]
  | cons pos0 rest' ih =>
    intro acc i d hok
    cases hstep : m2jStep h acc i pos0 with
    | error e =>
      simp only [m2jGo, hstep] at hok
      exact Except.noConfusion hok
    | ok acc1 =>
      simp only [m2jGo, hstep] at hok
      have ihr := ih acc1 (i + 1) d hok
      have hkey : ∀ (hne : i ≠ m), dictGet acc1 (some jn) = dictGet acc (some jn) := by
        intro hne
        rcases m2jStep_ok_cases hstep with ⟨hw, _⟩ | ⟨jn', v, hjni, hw⟩
        · by_cases hk : dictGet (motorToJointMap h) i = (some jn : Option JointId)
          · exact absurd (mtjInj_lookup hInj hk hmtj) hne
          · rw [hw, dictGet_dictSet_ne _ _ _ _ (fun hc => hk hc.symm)]
        · by_cases hk : jn' = jn
          · subst hk
            exact absurd (mtjInj_lookup hInj hjni hmtj) hne
          · rw [hw, dictGet_dictSet_ne _ _ _ _ (by
              intro hc
              exact hk (Option.some.inj hc.symm))]
      constructor
      · intro pos hle hget
        rcases Nat.eq_or_lt_of_le hle with heq | hlt2
        · subst heq
          have hz : i - i = 0 := by omega
          rw [hz] at hget
          have hpos : pos0 = pos := Option.some.inj hget
          subst hpos
          have hstep2 := @m2jStep_cal h acc _ pos0 _ _ _ _ _ hlim hmtj hrom hr
          rw [hstep2] at hstep
          have hacc1 : acc1 = dictSet acc (some jn) (some (rom.1 + (pos0 - lmin) / r)) :=
            (Except.ok.inj hstep).symm
          rw [ihr.2 (by omega), hacc1, dictGet_dictSet_self]
        · have hk : m - i = (m - (i + 1)) + 1 := by omega
          rw [hk] at hget
          exact ihr.1 pos (by omega) hget
      · intro him
        rw [ihr.2 (by omega), hkey (by omega)]

/-- C2: for every mentioned joint whose motor has both limit bounds
defined, `_joint_to_motor_pos` writes slot `motor_id - 1` of the result
with `motor_limit_min + (joint_pos - rom_min) * ratio`, the ratio being
the one `calibrate` computes, `(limit_max - limit_min) / (rom_max - rom_min)`. -/
theorem c2_joint_to_motor_formula (h : Hand) (current : List ℚ)
    (jp : List (JointId × ℚ)) (mp : List ℚ) (jn : JointId) (p : ℚ)
    (m : Nat) (lmin lmax : ℚ) (rom : ℚ × ℚ)
    (hok : jointToMotorPos h current jp = .ok mp)
    (hmem : (jn, p) ∈ jp)
    (hj : dictGet h.joint_to_motor_map jn = some m)
    (hlim : dictGet h.motor_limits m = some (some lmin, some lmax))
    (hrom : dictGet h.joint_roms jn = some rom)
    (hrat : dictGet h.joint_to_motor_ratios m =
      some (computeRatio lmin lmax rom.1 rom.2))
    (hu : ∀ q ∈ jp, ∀ m'' : Nat, dictGet h.joint_to_motor_map q.1 = some m'' →
      1 ≤ m'' ∧ (m'' = m → q = (jn, p))) :
    mp.get? (m - 1) =
      some (lmin + (p - rom.1) * computeRatio lmin lmax rom.1 rom.2) := by
  have hm1 : 1 ≤ m := (hu (jn, p) hmem m hj).1
  exact (j2mGo_value hj hm1 hlim hrom hrat jp current mp hok hu).1 hmem

/-- C7: frame property of `_joint_to_motor_pos`: the result equals the
current live motor-position vector at every slot whose motor's joint is
not mentioned in the partial mapping. -/
theorem c7_joint_to_motor_frame (h : Hand) (current : List ℚ)
    (jp : List (JointId × ℚ)) (mp : List ℚ) (i : Nat)
    (hok : jointToMotorPos h current jp = .ok mp)
    (hno : ∀ q ∈ jp, ∀ m' : Nat, dictGet h.joint_to_motor_map q.1 = some m' →
      1 ≤ m' ∧ m' ≠ i + 1) :
    mp.get? i = current.get? i :=
  j2mGo_frame jp current mp i hok hno

/-- C8 (amended): an entry whose joint identifier is not a declared
joint is silently skipped by `_joint_to_motor_pos` (`continue`); the
remaining joints are processed as if the entry were absent, and no
validation error is raised. -/
theorem c8_unknown_joint_skipped (h : Hand) (current : List ℚ)
    (jn : JointId) (p : ℚ) (rest : List (JointId × ℚ))
    (hunk : dictGet h.joint_to_motor_map jn = none) :
    jointToMotorPos h current ((jn, p) :: rest) =
      jointToMotorPos h current rest ∧
    setJointPos h current ((jn, p) :: rest) = setJointPos h current rest := by
  have h1 : jointToMotorPos h current ((jn, p) :: rest) =
      jointToMotorPos h current rest := by
    unfold jointToMotorPos
    simp only [j2mGo, j2mStep_skip hunk]
  exact ⟨h1, by unfold setJointPos; rw [h1]⟩

/-- A one-motor, fully calibrated example hand. -/
def hOne : Hand :=
  { motor_ids := [1]
    joint_ids := ["j1"]
    joint_to_motor_map := [("j1", 1)]
    joint_roms := [("j1", (0, 1))]
    motor_limits := [(1, (some 0, some 1))]
    joint_to_motor_ratios := [(1, 1)]
    calibrated := true
    control_mode := "position"
    max_current := 300
    calib_current := 200
    calib_sequence := []
    calib_threshold := 1/100
    calib_num_stable := 20 }

/-- C8 counterexample: a call mentioning the unknown joint "ghost"
does not abort with a validation error; it succeeds, processes the
remaining declared joint and issues the combined write. -/
theorem c8_cex :
    dictGet hOne.joint_to_motor_map "ghost" = none ∧
    setJointPos hOne [0] [("ghost", 3/10), ("j1", 1/2)] = .ok [1/2] := by
  constructor
  · simp [hOne, dictGet]
  · simp [hOne, setJointPos, jointToMotorPos, j2mGo, j2mStep, setMotorPosVec,
      dictGet, npSet]

/-- C3: for every motor whose limit pair has an undefined bound,
`_motor_to_joint_pos` maps that motor's joint name to an explicit
`None` entry in the returned dict: never a numeric value and never
omitted. -/
theorem c3_uncalibrated_motor_undefined (h : Hand) (mp : List ℚ)
    (d : List (Option JointId × Option ℚ)) (m : Nat) (l1 l2 : Option ℚ)
    (hok : motorToJointPos h mp = .ok d)
    (h1 : 1 ≤ m) (h2 : m ≤ mp.length)
    (hlim : dictGet h.motor_limits m = some (l1, l2))
    (hnone : l1 = none ∨ l2 = none)
    (hInj : MtjInj h) :
    dictGet d (dictGet (motorToJointMap h) m) = some none :=
  (m2jGo_none hInj hlim hnone mp [] 1 d hok).1 h1 (by simpa using by omega)

/-- C6: a `set_joint_pos` call mentioning a declared joint whose motor
has an undefined limit bound raises the not-calibrated error during the
joint-to-motor conversion, and no hardware position write is issued for
any joint of the call. -/
theorem c6_not_calibrated_blocks_write (h : Hand) (current : List ℚ)
    (jp : List (JointId × ℚ))
    (hmention : ∃ q ∈ jp, ∃ m : Nat, ∃ l1 l2 : Option ℚ,
      dictGet h.joint_to_motor_map q.1 = some m ∧
      dictGet h.motor_limits m = some (l1, l2) ∧ (l1 = none ∨ l2 = none))
    (hwf : ∀ q ∈ jp, ∀ m : Nat, dictGet h.joint_to_motor_map q.1 = some m →
      ∃ pr : Option ℚ × Option ℚ, dictGet h.motor_limits m = some pr ∧
        (∀ lmin lmax : ℚ, pr = (some lmin, some lmax) →
          (dictGet h.joint_roms q.1).isSome ∧
          (dictGet h.joint_to_motor_ratios m).isSome ∧
          1 ≤ m ∧ m ≤ current.length)) :
    (∃ m jn, setJointPos h current jp = .error (.notCalibrated m jn)) ∧
    writesOf (setJointPos h current jp) = [] := by
  have key : ∀ (jp' : List (JointId × ℚ)),
      (∃ q ∈ jp', ∃ m : Nat, ∃ l1 l2 : Option ℚ,
        dictGet h.joint_to_motor_map q.1 = some m ∧
        dictGet h.motor_limits m = some (l1, l2) ∧ (l1 = none ∨ l2 = none)) →
      (∀ q ∈ jp', ∀ m : Nat, dictGet h.joint_to_motor_map q.1 = some m →
        ∃ pr : Option ℚ × Option ℚ, dictGet h.motor_limits m = some pr ∧
          (∀ lmin lmax : ℚ, pr = (some lmin, some lmax) →
            (dictGet h.joint_roms q.1).isSome ∧
            (dictGet h.joint_to_motor_ratios m).isSome ∧
            1 ≤ m ∧ m ≤ current.length)) →
      ∀ (mp : List ℚ), mp.length = current.length →
      ∃ m jn, j2mGo h mp jp' = .error (.notCalibrated m jn) := by
    intro jp'
    induction jp' with
    | nil =>
      intro hmen _ mp _
      obtain ⟨q, hq, _⟩ := hmen
      exact absurd hq (List.not_mem_nil _)
    | cons q rest ih =>
      intro hmen hwf' mp hlen
      cases hjq : dictGet h.joint_to_motor_map q.1 with
      | none =>
        have hstep := @j2mStep_skip h mp _ q.2 hjq
        obtain ⟨q0, hq0, m0, l1, l2, hj0, hl0, hn0⟩ := hmen
        rcases List.mem_cons.mp hq0 with heq | hq0r
        · exfalso
          rw [heq, hjq] at hj0
          exact Option.noConfusion hj0
        · obtain ⟨m', jn', hgo⟩ := ih ⟨q0, hq0r, m0, l1, l2, hj0, hl0, hn0⟩
            (fun q' hq' => hwf' q' (List.mem_cons_of_mem _ hq')) mp hlen
          exact ⟨m', jn', by simp only [j2mGo, hstep]; exact hgo⟩
      | some m =>
        obtain ⟨pr, hl, hcal⟩ := hwf' q (List.mem_cons_self _ _) m hjq
        obtain ⟨pl1, pl2⟩ := pr
        cases pl1 with
        | none =>
          have hstep := @j2mStep_notcal h mp _ q.2 _ _ _ hjq hl (Or.inl rfl)
          exact ⟨m, q.1, by simp only [j2mGo, hstep]⟩
        | some lmin =>
          cases pl2 with
          | none =>
            have hstep := @j2mStep_notcal h mp _ q.2 _ _ _ hjq hl (Or.inr rfl)
            exact ⟨m, q.1, by simp only [j2mGo, hstep]⟩
          | some lmax =>
            obtain ⟨hroms, hrats, hm1, hmle⟩ := hcal lmin lmax rfl
            obtain ⟨rom, hrom⟩ := Option.isSome_iff_exists.mp hroms
            obtain ⟨r, hr⟩ := Option.isSome_iff_exists.mp hrats
            have hstep := @j2mStep_write h mp _ q.2 _ _ _ _ _ hjq hl hrom hr
            have h0 : (0 : Int) ≤ (m : Int) - 1 := by omega
            have hlt : ((m : Int) - 1) < (mp.length : Int) := by omega
            rw [npSet_pos_ok mp _ _ h0 hlt] at hstep
            obtain ⟨q0, hq0, m0, l1, l2, hj0, hl0, hn0⟩ := hmen
            rcases List.mem_cons.mp hq0 with heq | hq0r
            · exfalso
              rw [heq, hjq] at hj0
              have hm0 : m = m0 := Option.some.inj hj0
              subst hm0
              rw [hl] at hl0
              have hpair := Option.some.inj hl0
              rw [Prod.mk.injEq] at hpair
              rcases hn0 with hn0 | hn0
              · rw [← hpair.1] at hn0; exact Option.noConfusion hn0
              · rw [← hpair.2] at hn0; exact Option.noConfusion hn0
            · obtain ⟨m', jn', hgo⟩ := ih ⟨q0, hq0r, m0, l1, l2, hj0, hl0, hn0⟩
                (fun q' hq' => hwf' q' (List.mem_cons_of_mem _ hq'))
                (mp.set ((m : Int) - 1).toNat (lmin + (q.2 - rom.1) * r))
                (by rw [List.length_set]; exact hlen)
              exact ⟨m', jn', by simp only [j2mGo, hstep]; exact hgo⟩
  obtain ⟨m, jn, hgo⟩ := key jp hmention hwf current rfl
  have hsjp : setJointPos h current jp = .error (.notCalibrated m jn) := by
    unfold setJointPos jointToMotorPos
    rw [hgo]
  exact ⟨⟨m, jn, hsjp⟩, by rw [hsjp]; rfl⟩

/-- C1 (amended): round-trip law.  For every calibration table in which
every mentioned motor has both limit bounds defined and distinct (so
the consistent ratio is nonzero), the ratio consistent with them and
with the joint's positive-width ROM, and the joint/motor
correspondence consistent on the mentioned joints, applying
`_joint_to_motor_pos` and then `_motor_to_joint_pos` reconstructs every
mentioned joint value exactly. -/
theorem c1_round_trip (h : Hand) (current : List ℚ)
    (jp : List (JointId × ℚ)) (mp : List ℚ)
    (d : List (Option JointId × Option ℚ))
    (hok1 : jointToMotorPos h current jp = .ok mp)
    (hok2 : motorToJointPos h mp = .ok d)
    (hInj : MtjInj h)
    (H : ∀ q ∈ jp, ∃ (m : Nat) (lmin lmax : ℚ) (rom : ℚ × ℚ),
      dictGet h.joint_to_motor_map q.1 = some m ∧
      dictGet (motorToJointMap h) m = some q.1 ∧
      dictGet h.motor_limits m = some (some lmin, some lmax) ∧
      lmin ≠ lmax ∧
      dictGet h.joint_roms q.1 = some rom ∧
      rom.1 < rom.2 ∧
      dictGet h.joint_to_motor_ratios m =
        some (computeRatio lmin lmax rom.1 rom.2) ∧
      1 ≤ m ∧
      (∀ q' ∈ jp, dictGet h.joint_to_motor_map q'.1 = some m → q' = q)) :
    ∀ q ∈ jp, dictGet d (some q.1) = some (some q.2) := by
  intro q hq
  obtain ⟨m, lmin, lmax, rom, hj, hmtj, hlim, hlne, hrom, hromlt, hrat, hm1, huq⟩ :=
    H q hq
  have hu : ∀ q' ∈ jp, ∀ m'' : Nat, dictGet h.joint_to_motor_map q'.1 = some m'' →
      1 ≤ m'' ∧ (m'' = m → q' = (q.1, q.2)) := by
    intro q' hq' m'' hj'
    obtain ⟨m2, _, _, _, hj2, _, _, _, _, _, _, hm2, _⟩ := H q' hq'
    have hm2e : m2 = m'' := by rw [hj2] at hj'; exact Option.some.inj hj'
    subst hm2e
    refine ⟨hm2, fun hmm => ?_⟩
    subst hmm
    rw [Prod.mk.eta]
    exact huq q' hq' hj2
  have hmem : (q.1, q.2) ∈ jp := by rw [Prod.mk.eta]; exact hq
  have hslot := (j2mGo_value hj hm1 hlim hrom hrat jp current mp hok1 hu).1 hmem
  obtain ⟨hlt1, _⟩ := List.get?_eq_some.mp hslot
  have hd := (m2jGo_cal hInj hmtj hlim hrom hrat mp [] 1 d hok2).1
    (lmin + (q.2 - rom.1) * computeRatio lmin lmax rom.1 rom.2) hm1 hslot
  have hrne : computeRatio lmin lmax rom.1 rom.2 ≠ 0 := by
    unfold computeRatio
    exact div_ne_zero (sub_ne_zero.mpr (Ne.symm hlne))
      (sub_ne_zero.mpr (ne_of_gt hromlt))
  have hval : rom.1 + ((lmin + (q.2 - rom.1) * computeRatio lmin lmax rom.1 rom.2)
      - lmin) / computeRatio lmin lmax rom.1 rom.2 = q.2 := by
    rw [add_sub_cancel_left, mul_div_cancel_right₀ _ hrne]
    ring
  rw [hval] at hd
  exact hd

/-- A one-motor hand with a degenerate calibration: both limit bounds
defined but equal, with the consistent ratio (which is therefore 0). -/
def hDeg : Hand :=
  { motor_ids := [1]
    joint_ids := ["j1"]
    joint_to_motor_map := [("j1", 1)]
    joint_roms := [("j1", (0, 1))]
    motor_limits := [(1, (some 0, some 0))]
    joint_to_motor_ratios := [(1, computeRatio 0 0 0 1)]
    calibrated := true
    control_mode := "position"
    max_current := 300
    calib_current := 200
    calib_sequence := []
    calib_threshold := 1/100
    calib_num_stable := 20 }

/-- C1 counterexample: with both limit bounds defined and the ratio
consistent with them (limits equal, hence ratio 0), the round trip does
not reconstruct the mentioned joint value 1/2: the reported joint
position is 0 (in Python, NaN) rather than 1/2. -/
theorem c1_cex :
    dictGet hDeg.motor_limits 1 = some (some 0, some 0) ∧
    dictGet hDeg.joint_to_motor_ratios 1 = some (computeRatio 0 0 0 1) ∧
    jointToMotorPos hDeg [0] [("j1", 1/2)] = .ok [0] ∧
    motorToJointPos hDeg [0] = .ok [(some "j1", some 0)] ∧
    ((1 : ℚ)/2 ≠ 0) := by
  refine ⟨by simp [hDeg, dictGet], by simp [hDeg, dictGet], ?_, ?_, by norm_num⟩
  · simp [hDeg, jointToMotorPos, j2mGo, j2mStep, dictGet, npSet, computeRatio]
  · simp [hDeg, motorToJointPos, m2jGo, m2jStep, motorToJointMap, dictGet,
      dictSet, computeRatio]

/-- C4: `is_calibrated()` returns true iff every motor's limit pair has
both bounds defined; it is a function of the limit table alone
(unchanged under any value of the cached flag); and `_sanity_check`
forces the flag to false and persists that correction (an
`update_yaml("calibrated", False)` write) whenever some motor's limit
pair is incomplete. -/
theorem c4_is_calibrated :
    (∀ h : Hand, isCalibrated h = true ↔
      ∀ q ∈ h.motor_limits, q.2.1.isSome = true ∧ q.2.2.isSome = true) ∧
    (∀ (h : Hand) (b : Bool),
      isCalibrated {h with calibrated := b} = isCalibrated h) ∧
    (∀ (h h' : Hand) (log : List (String × Bool)),
      sanityCheck h = .ok (h', log) →
      (∃ q ∈ h.motor_limits, q.2.1 = none ∨ q.2.2 = none) →
      h'.calibrated = false ∧ ("calibrated", false) ∈ log) := by
  refine ⟨?_, ?_, ?_⟩
  · intro h
    simp [isCalibrated, List.all_eq_true, Bool.and_eq_true]
  · intro h b
    rfl
  · intro h h' log hok hex
    unfold sanityCheck at hok
    split at hok
    · exact Except.noConfusion hok
    split at hok
    · exact Except.noConfusion hok
    split at hok
    · exact Except.noConfusion hok
    split at hok
    · exact Except.noConfusion hok
    split at hok
    · exact Except.noConfusion hok
    split at hok
    · exact Except.noConfusion hok
    split at hok
    · exact Except.noConfusion hok
    obtain ⟨q, hq, hn⟩ := hex
    have hbadmem : q ∈ h.motor_limits.filter
        (fun q => q.2.1.isNone || q.2.2.isNone) := by
      rw [List.mem_filter]
      refine ⟨hq, ?_⟩
      rcases hn with hn | hn <;> simp [hn]
    split at hok
    · rename_i hbad
      rw [List.isEmpty_iff] at hbad
      rw [hbad] at hbadmem
      exact absurd hbadmem (List.not_mem_nil _)
    · have hinj := Except.ok.inj hok
      rw [Prod.mk.injEq] at hinj
      constructor
      · rw [← hinj.1]
      · rw [← hinj.2]
        exact List.mem_map.mpr ⟨q, hbadmem, rfl⟩

/-- C5 (amended): during `calibrate`, a motor is judged at its limit
exactly when the stability buffer holds `calib_num_stable` samples and
every buffered value is within `calib_threshold + 1e-5 * |first|` of
the buffer's first element (numpy `allclose` keeps its default relative
tolerance `rtol = 1e-5` on top of the configured absolute one); the
recorded bound is the buffer mean, stored as the upper limit for flex
and the lower limit for extend.  The spec's concrete scenario holds:
buffer size 5, threshold 0.01, samples
`[0.50, 0.505, 0.498, 0.502, 0.499]` are judged stable and the recorded
limit is the mean 0.5008. -/
theorem c5_stability_and_mean :
    (∀ (n : Nat) (t : ℚ) (buf : List ℚ) (b : Bool),
      stableAtLimit n t buf = .ok b →
      (b = true ↔ buf.length = n ∧
        ∀ x ∈ buf, |x - buf.headI| ≤ t + npRtol * |buf.headI|)) ∧
    (∀ (lims : Option ℚ × Option ℚ) (avg : ℚ),
      recordLimit lims (dirSign "flex") avg = (lims.1, some avg) ∧
      recordLimit lims (dirSign "extend") avg = (some avg, lims.2)) ∧
    (stableAtLimit 5 (1/100) [1/2, 101/200, 249/500, 251/500, 499/1000] =
        .ok true ∧
      meanList [1/2, 101/200, 249/500, 251/500, 499/1000] = 313/625 ∧
      recordLimit (none, none) (dirSign "flex") (313/625) =
        (none, some (313/625))) := by
  refine ⟨?_, ?_, ?_, ?_, ?_⟩
  · intro n t buf b hok
    unfold stableAtLimit at hok
    split at hok
    · rename_i hlen
      cases buf with
      | nil => exact Except.noConfusion hok
      | cons x0 tl =>
        have hb : b = npAllclose (x0 :: tl) x0 t := (Except.ok.inj hok).symm
        subst hb
        simp only [npAllclose, List.headI, List.all_eq_true, decide_eq_true_eq]
        constructor
        · intro hall
          exact ⟨hlen, hall⟩
        · intro hall
          exact hall.2
    · rename_i hlen
      have hb : b = false := (Except.ok.inj hok).symm
      subst hb
      constructor
      · intro hc
        exact Bool.noConfusion hc
      · intro hall
        exact absurd hall.1 hlen
  · intro lims avg
    constructor <;> simp [recordLimit, dirSign]
  · have habs : |(1 : ℚ)/2| = 1/2 := abs_of_nonneg (by norm_num)
    unfold stableAtLimit
    simp only [List.length_cons, List.length_nil]
    rw [if_pos trivial]
    simp only [npAllclose, npRtol, List.all_cons, List.all_nil,
      Bool.and_eq_true, decide_eq_true_eq, habs, abs_le]
    norm_num
  · simp only [meanList, List.sum_cons, List.sum_nil, List.length_cons,
      List.length_nil]
    norm_num
  · simp [recordLimit, dirSign]

/-- A two-joint configuration whose joint-to-motor map is not a
bijection: both joints map to motor 1 and motor 2 has no joint; all the
count and membership checks of `_sanity_check` pass. -/
def hDup : Hand :=
  { motor_ids := [1, 2]
    joint_ids := ["a", "b"]
    joint_to_motor_map := [("a", 1), ("b", 1)]
    joint_roms := [("a", (0, 1)), ("b", (0, 1))]
    motor_limits := [(1, (some 0, some 1)), (2, (some 0, some 1))]
    joint_to_motor_ratios := [(1, 1)]
    calibrated := true
    control_mode := "position"
    max_current := 300
    calib_current := 200
    calib_sequence := []
    calib_threshold := 1/100
    calib_num_stable := 20 }

/-- C9 counterexample: construction does not fail fast on a
non-bijective joint-to-motor map.  In `hDup` two joints share motor 1
and motor 2 is the image of no joint, yet `_sanity_check` succeeds. -/
theorem c9_cex :
    dictGet hDup.joint_to_motor_map "a" = some 1 ∧
    dictGet hDup.joint_to_motor_map "b" = some 1 ∧
    (∀ q ∈ hDup.joint_to_motor_map, q.2 ≠ 2) ∧
    sanityCheck hDup = .ok (hDup, []) := by
  refine ⟨by simp [hDup, dictGet], by simp [hDup, dictGet], by decide, ?_⟩
  norm_num [sanityCheck, hDup, dictGet, validModes]

/-- C9 (amended): `_sanity_check` validates count equality
(motors vs joints vs map size), the control mode, the current bound,
membership and ROM presence for every mapped joint and mapped motor,
ROM positivity, and the calibration sequence — and nothing else about
the map: any configuration passing those checks is accepted, bijective
or not. -/
theorem c9_sanity_accepts_all_checked (h : Hand)
    (h1 : h.motor_ids.length = h.joint_ids.length)
    (h2 : h.motor_ids.length = h.joint_to_motor_map.length)
    (h3 : validModes.contains h.control_mode = true)
    (h4 : h.calib_current ≤ h.max_current)
    (h5 : h.joint_to_motor_map.all (fun q =>
      h.joint_ids.contains q.1 && (dictGet h.joint_roms q.1).isSome &&
      h.motor_ids.contains q.2) = true)
    (h6 : h.joint_roms.all (fun q =>
      decide (0 < q.2.2 - q.2.1) && h.joint_ids.contains q.1) = true)
    (h7 : h.calib_sequence.all (fun st => st.all (fun q =>
      h.joint_ids.contains q.1 && (q.2 == "flex" || q.2 == "extend"))) = true) :
    isOkE (sanityCheck h) = true := by
  unfold sanityCheck
  rw [if_neg (by omega), if_neg (by omega), if_neg (not_not_intro h3),
    if_neg (not_lt.mpr h4), if_neg (not_not_intro h5),
    if_neg (not_not_intro h6), if_neg (not_not_intro h7)]
  split <;> rfl

/-- Slot `i` of `range' s n`. -/
theorem range'_get? (s n : Nat) :
    ∀ i : Nat, i < n → (List.range' s n).get? i = some (s + i) := by
  induction n generalizing s with
  | zero => intro i hi; omega
  | succ n ih =>
    intro i hi
    cases i with
    | zero => simp [List.range']
    | succ j =>
      have : (List.range' s (n + 1)).get? (j + 1) =
          (List.range' (s + 1) n).get? j := rfl
      rw [this, ih (s + 1) j (by omega)]
      exact congrArg some (by omega)

theorem npGet_pos_ok (v : List ℚ) (i : Int)
    (h0 : 0 ≤ i) (h1 : i < (v.length : Int)) :
    ∃ x, npGet v i = .ok x := by
  have hni : ¬ i < 0 := by omega
  have hlt : i.toNat < v.length := by omega
  have hcond : (0 ≤ i ∧ i < (v.length : Int)) := ⟨h0, h1⟩
  cases hg : v.get? i.toNat with
  | none =>
    exfalso
    rw [List.get?_eq_none] at hg
    omega
  | some x =>
    refine ⟨x, ?_⟩
    simp only [npGet, if_neg hni, if_pos hcond, hg]

/-- Under the 1..N id convention, `_joint_to_motor_pos` can never hit
an out-of-range slot. -/
theorem j2mGo_no_idx {h : Hand} {N : Nat}
    (hids : h.motor_ids = List.range' 1 N)
    (hmap : ∀ q ∈ h.joint_to_motor_map, q.2 ∈ h.motor_ids) :
    ∀ (jp : List (JointId × ℚ)) (mp : List ℚ), mp.length = N →
    j2mGo h mp jp ≠ .error .indexError := by
  intro jp
  induction jp with
  | nil =>
    intro mp _ hc
    simp only [j2mGo] at hc
    exact Except.noConfusion hc
  | cons q rest ih =>
    intro mp hlen hc
    cases hstep : j2mStep h mp q.1 q.2 with
    | ok mp1 =>
      simp only [j2mGo, hstep] at hc
      have hlen1 : mp1.length = N := by
        rcases j2mStep_ok_cases hstep with ⟨_, hmp⟩ |
          ⟨m, lmin, lmax, rom, r, _, _, _, _, hset⟩
        · rw [hmp]; exact hlen
        · rw [npSet_ok_length hset]; exact hlen
      exact ih mp1 hlen1 hc
    | error e =>
      simp only [j2mGo, hstep] at hc
      have he : e = .indexError := Except.error.inj hc
      subst he
      unfold j2mStep at hstep
      cases hjq : dictGet h.joint_to_motor_map q.1 with
      | none => simp only [hjq] at hstep; exact Except.noConfusion hstep
      | some m =>
        simp only [hjq] at hstep
        have hmem : m ∈ h.motor_ids := hmap (q.1, m) (dictGet_mem hjq)
        rw [hids] at hmem
        have hrange := List.mem_range'_1.mp hmem
        cases hl : dictGet h.motor_limits m with
        | none =>
          simp only [hl] at hstep
          exact Err.noConfusion (Except.error.inj hstep)
        | some lims =>
          simp only [hl] at hstep
          obtain ⟨l1, l2⟩ := lims
          cases l1 with
          | none =>
            cases l2 <;> exact Err.noConfusion (Except.error.inj hstep)
          | some lmin =>
            cases l2 with
            | none => exact Err.noConfusion (Except.error.inj hstep)
            | some lmax =>
              cases hrom : dictGet h.joint_roms q.1 with
              | none =>
                simp only [hrom] at hstep
                exact Err.noConfusion (Except.error.inj hstep)
              | some rom =>
                simp only [hrom] at hstep
                cases hr : dictGet h.joint_to_motor_ratios m with
                | none =>
                  simp only [hr] at hstep
                  exact Err.noConfusion (Except.error.inj hstep)
                | some r =>
                  simp only [hr] at hstep
                  have h0 : (0 : Int) ≤ (m : Int) - 1 := by omega
                  have h1 : ((m : Int) - 1) < (mp.length : Int) := by omega
                  rw [npSet_pos_ok mp _ _ h0 h1] at hstep
                  exact Except.noConfusion hstep

theorem buildDesired_ok (current : List ℚ) (desired : List (Nat × ℚ))
    (rel : Bool) :
    ∀ ms : List Nat, (∀ m ∈ ms, 1 ≤ m ∧ m ≤ current.length) →
    ∃ arr, buildDesired current desired rel ms = .ok arr ∧
      arr.length = ms.length := by
  intro ms
  induction ms with
  | nil => exact fun _ => ⟨[], rfl, rfl⟩
  | cons m tl ih =>
    intro hb
    obtain ⟨arr, harr, hlen⟩ := ih (fun m' hm' => hb m' (List.mem_cons_of_mem _ hm'))
    obtain ⟨hm1, hm2⟩ := hb m (List.mem_cons_self _ _)
    cases hd : dictGet desired m with
    | some v =>
      exact ⟨v :: arr, by simp only [buildDesired, hd, harr], by simp [hlen]⟩
    | none =>
      cases rel with
      | true =>
        exact ⟨0 :: arr, by simp [buildDesired, hd, harr], by simp [hlen]⟩
      | false =>
        have h0 : (0 : Int) ≤ (m : Int) - 1 := by omega
        have h1 : ((m : Int) - 1) < (current.length : Int) := by omega
        obtain ⟨x, hx⟩ := npGet_pos_ok current _ h0 h1
        exact ⟨x :: arr, by simp [buildDesired, hd, hx, harr], by simp [hlen]⟩

/-- C10: under the precondition that the declared motor ids are exactly
1..N in ascending order (and every mapped motor is declared, and the
live position vector has length N): slot `motor_id - 1` is exactly the
position of `motor_id` in the `motor_ids` ordering, so id-based
indexing addresses the intended motor; and the id-indexed accesses of
`_joint_to_motor_pos`, `_set_motor_pos` and the position read
`curr_pos[motor_id - 1]` used by the calibrate loop are all in
bounds — none of them can raise IndexError. -/
theorem c10_id_indexing (h : Hand) (N : Nat) (current : List ℚ)
    (hids : h.motor_ids = List.range' 1 N)
    (hmap : ∀ q ∈ h.joint_to_motor_map, q.2 ∈ h.motor_ids)
    (hlen : current.length = N) :
    (∀ m ∈ h.motor_ids, 1 ≤ m ∧ m - 1 < N ∧
      h.motor_ids.get? (m - 1) = some m) ∧
    (∀ jp : List (JointId × ℚ),
      jointToMotorPos h current jp ≠ .error .indexError) ∧
    (∀ (desired : List (Nat × ℚ)) (rel : Bool),
      setMotorPosDict h current desired rel ≠ .error .indexError) ∧
    (∀ m ∈ h.motor_ids, isOkE (npGet current ((m : Int) - 1)) = true) := by
  have hbound : ∀ m ∈ h.motor_ids, 1 ≤ m ∧ m ≤ current.length := by
    intro m hm
    rw [hids] at hm
    have := List.mem_range'_1.mp hm
    omega
  refine ⟨?_, ?_, ?_, ?_⟩
  · intro m hm
    obtain ⟨hm1, hm2⟩ := hbound m hm
    refine ⟨hm1, by omega, ?_⟩
    rw [hids, range'_get? 1 N (m - 1) (by omega)]
    exact congrArg some (by omega)
  · exact fun jp => j2mGo_no_idx hids hmap jp current hlen
  · intro desired rel hc
    obtain ⟨arr, harr, hlarr⟩ := buildDesired_ok current desired rel h.motor_ids hbound
    cases rel with
    | false =>
      simp only [setMotorPosDict, harr] at hc
      exact Except.noConfusion hc
    | true =>
      simp only [setMotorPosDict, harr] at hc
      by_cases hle : arr.length = current.length
      · rw [if_pos hle] at hc
        exact Except.noConfusion hc
      · rw [if_neg hle] at hc
        exact Err.noConfusion (Except.error.inj hc)
  · intro m hm
    obtain ⟨hm1, hm2⟩ := hbound m hm
    obtain ⟨x, hx⟩ := npGet_pos_ok current ((m : Int) - 1) (by omega) (by omega)
    rw [hx]
    rfl

/-- C5 counterexample: with threshold 0.01 and first element 100, the
buffer whose last sample is 100.0105 is judged stable by the code
(numpy allclose tolerance 0.01 + 1e-5 * 100 = 0.011) although not
every value is within the 0.01 absolute tolerance of the first element
claimed by the spec. -/
theorem c5_cex :
    stableAtLimit 5 (1/100) [100, 100, 100, 100, 100 + 21/2000] = .ok true ∧
    ¬ (∀ x ∈ [(100 : ℚ), 100, 100, 100, 100 + 21/2000], |x - 100| ≤ 1/100) := by
  constructor
  · have habs : |(100 : ℚ)| = 100 := abs_of_nonneg (by norm_num)
    unfold stableAtLimit
    simp only [List.length_cons, List.length_nil]
    rw [if_pos trivial]
    simp only [npAllclose, npRtol, List.all_cons, List.all_nil,
      Bool.and_eq_true, decide_eq_true_eq, habs, abs_le]
    norm_num
  · intro hall
    have h1 := hall (100 + 21/2000) (by simp)
    rw [abs_le] at h1
    have h2 := h1.2
    norm_num at h2

/-- A two-motor hand: motor 1 (joint "j1") has an incomplete limit
pair, motor 2 (joint "j2") is fully calibrated with the consistent
ratio. -/
def hTwo : Hand :=
  { motor_ids := [1, 2]
    joint_ids := ["j1", "j2"]
    joint_to_motor_map := [("j1", 1), ("j2", 2)]
    joint_roms := [("j1", (0, 1)), ("j2", (0, 1))]
    motor_limits := [(1, (some 0, none)), (2, (some 0, some 1))]
    joint_to_motor_ratios := [(2, computeRatio 0 1 0 1)]
    calibrated := false
    control_mode := "position"
    max_current := 300
    calib_current := 200
    calib_sequence := []
    calib_threshold := 1/100
    calib_num_stable := 20 }

/-- The spec scenario hand: motor 1 limits [-1, 1], ROM [0, 1.57]. -/
def hRom157 : Hand :=
  { motor_ids := [1]
    joint_ids := ["f"]
    joint_to_motor_map := [("f", 1)]
    joint_roms := [("f", (0, 157/100))]
    motor_limits := [(1, (some (-1), some 1))]
    joint_to_motor_ratios := [(1, computeRatio (-1) 1 0 (157/100))]
    calibrated := true
    control_mode := "position"
    max_current := 300
    calib_current := 200
    calib_sequence := []
    calib_threshold := 1/100
    calib_num_stable := 20 }

/-- A hand whose persisted flag claims calibrated although motor 1's
limit pair is incomplete. -/
def hW : Hand :=
  { motor_ids := [1]
    joint_ids := ["a"]
    joint_to_motor_map := [("a", 1)]
    joint_roms := [("a", (0, 1))]
    motor_limits := [(1, (some 0, none))]
    joint_to_motor_ratios := []
    calibrated := true
    control_mode := "position"
    max_current := 300
    calib_current := 200
    calib_sequence := []
    calib_threshold := 1/100
    calib_num_stable := 20 }

theorem c1_witness :
    dictGet [((some "j1" : Option JointId), (none : Option ℚ)),
      (some "j2", some (1/2))] (some "j2") = some (some (1/2)) := by
  refine c1_round_trip hTwo [0, 0] [("j2", 1/2)] [0, 1/2]
    [(some "j1", none), (some "j2", some (1/2))] ?_ ?_ ?_ ?_ ("j2", 1/2)
    (List.mem_cons_self _ _)
  · simp [hTwo, jointToMotorPos, j2mGo, j2mStep, dictGet, npSet, computeRatio]
  · simp [hTwo, motorToJointPos, m2jGo, m2jStep, motorToJointMap, dictGet,
      dictSet, computeRatio]
  · decide
  · intro q hq
    simp only [List.mem_cons, List.not_mem_nil, or_false] at hq
    subst hq
    refine ⟨2, 0, 1, (0, 1), ?_, ?_, ?_, ?_, ?_, ?_, ?_, ?_, ?_⟩
    · simp [hTwo, dictGet]
    · simp [hTwo, motorToJointMap, dictGet, dictSet]
    · simp [hTwo, dictGet]
    · norm_num
    · simp [hTwo, dictGet]
    · norm_num
    · simp [hTwo, dictGet]
    · omega
    · intro q' hq' hj'
      simp only [List.mem_cons, List.not_mem_nil, or_false] at hq'
      subst hq'
      rfl

theorem c2_witness :
    computeRatio (-1) 1 0 (157/100) = 200/157 ∧
    jointToMotorPos hRom157 [0] [("f", 157/200)] = .ok [0] ∧
    List.get? [(0 : ℚ)] 0 =
      some ((-1) + (157/200 - 0) * computeRatio (-1) 1 0 (157/100)) := by
  have hok : jointToMotorPos hRom157 [0] [("f", 157/200)] = .ok [0] := by
    simp [hRom157, jointToMotorPos, j2mGo, j2mStep, dictGet, npSet, computeRatio]
    norm_num
  refine ⟨by norm_num [computeRatio], hok, ?_⟩
  refine c2_joint_to_motor_formula hRom157 [0] [("f", 157/200)] [0] "f" (157/200)
    1 (-1) 1 (0, 157/100) hok (List.mem_cons_self _ _) ?_ ?_ ?_ ?_ ?_
  · simp [hRom157, dictGet]
  · simp [hRom157, dictGet]
  · simp [hRom157, dictGet]
  · simp [hRom157, dictGet]
  · intro q hq m'' hj'
    simp only [List.mem_cons, List.not_mem_nil, or_false] at hq
    subst hq
    simp [hRom157, dictGet] at hj'
    refine ⟨?_, fun _ => rfl⟩
    omega

theorem c3_witness :
    dictGet [((some "j1" : Option JointId), (none : Option ℚ)),
      (some "j2", some (1/2))] (dictGet (motorToJointMap hTwo) 1) = some none := by
  refine c3_uncalibrated_motor_undefined hTwo [0, 1/2]
    [(some "j1", none), (some "j2", some (1/2))] 1 (some 0) none
    ?_ ?_ ?_ ?_ ?_ ?_
  · simp [hTwo, motorToJointPos, m2jGo, m2jStep, motorToJointMap, dictGet,
      dictSet, computeRatio]
  · omega
  · simp
  · simp [hTwo, dictGet]
  · exact Or.inr rfl
  · decide

theorem c4_witness :
    ({hW with calibrated := false}).calibrated = false ∧
    ("calibrated", false) ∈ [(("calibrated" : String), false)] :=
  c4_is_calibrated.2.2 hW {hW with calibrated := false} [("calibrated", false)]
    (by norm_num [sanityCheck, hW, dictGet, validModes])
    ⟨(1, (some 0, none)), by simp [hW], Or.inr rfl⟩

theorem c5_witness :
    ([(1 : ℚ)/2, 101/200, 249/500, 251/500, 499/1000].length = 5 ∧
     ∀ x ∈ [(1 : ℚ)/2, 101/200, 249/500, 251/500, 499/1000],
       |x - [(1 : ℚ)/2, 101/200, 249/500, 251/500, 499/1000].headI| ≤
         1/100 + npRtol * |[(1 : ℚ)/2, 101/200, 249/500, 251/500, 499/1000].headI|) := by
  have hok : stableAtLimit 5 (1/100)
      [1/2, 101/200, 249/500, 251/500, 499/1000] = .ok true := by
    have habs : |(1 : ℚ)/2| = 1/2 := abs_of_nonneg (by norm_num)
    unfold stableAtLimit
    simp only [List.length_cons, List.length_nil]
    rw [if_pos trivial]
    simp only [npAllclose, npRtol, List.all_cons, List.all_nil,
      Bool.and_eq_true, decide_eq_true_eq, habs, abs_le]
    norm_num
  exact (c5_stability_and_mean.1 5 (1/100)
    [1/2, 101/200, 249/500, 251/500, 499/1000] true hok).mp rfl

theorem c6_witness :
    (∃ m jn, setJointPos hTwo [0, 0] [("j1", 1/2)] =
      .error (.notCalibrated m jn)) ∧
    writesOf (setJointPos hTwo [0, 0] [("j1", 1/2)]) = [] := by
  refine c6_not_calibrated_blocks_write hTwo [0, 0] [("j1", 1/2)] ?_ ?_
  · exact ⟨("j1", 1/2), List.mem_cons_self _ _, 1, some 0, none,
      by simp [hTwo, dictGet], by simp [hTwo, dictGet], Or.inr rfl⟩
  · intro q hq m hj
    simp only [List.mem_cons, List.not_mem_nil, or_false] at hq
    subst hq
    simp [hTwo, dictGet] at hj
    subst hj
    refine ⟨(some 0, none), ?_, ?_⟩
    · simp [hTwo, dictGet]
    · intro lmin lmax hpr
      simp at hpr

theorem c7_witness :
    List.get? [(0 : ℚ), 1/2] 0 = List.get? [(0 : ℚ), 7] 0 := by
  refine c7_joint_to_motor_frame hTwo [0, 7] [("j2", 1/2)] [0, 1/2] 0 ?_ ?_
  · simp [hTwo, jointToMotorPos, j2mGo, j2mStep, dictGet, npSet, computeRatio]
  · intro q hq m' hj'
    simp only [List.mem_cons, List.not_mem_nil, or_false] at hq
    subst hq
    simp [hTwo, dictGet] at hj'
    omega

theorem c8_witness :
    jointToMotorPos hOne [0] [("ghost", 3/10), ("j1", 1/2)] =
      jointToMotorPos hOne [0] [("j1", 1/2)] ∧
    setJointPos hOne [0] [("ghost", 3/10), ("j1", 1/2)] =
      setJointPos hOne [0] [("j1", 1/2)] :=
  c8_unknown_joint_skipped hOne [0] "ghost" (3/10) [("j1", 1/2)]
    (by simp [hOne, dictGet])

theorem c9_witness : isOkE (sanityCheck hDup) = true := by
  refine c9_sanity_accepts_all_checked hDup rfl rfl ?_ ?_ ?_ ?_ ?_
  · decide
  · norm_num [hDup]
  · norm_num [hDup, dictGet]
  · norm_num [hDup]
  · norm_num [hDup]

theorem c10_witness :
    (∀ jp : List (JointId × ℚ),
      jointToMotorPos hTwo [0, 0] jp ≠ .error .indexError) ∧
    (∀ (desired : List (Nat × ℚ)) (rel : Bool),
      setMotorPosDict hTwo [0, 0] desired rel ≠ .error .indexError) := by
  have hc := c10_id_indexing hTwo 2 [0, 0] rfl (by decide) rfl
  exact ⟨hc.2.1, hc.2.2.1⟩
